import Mathlib

/-!
Verification of the core algorithms of the VideoSummary repository
(`video_summary_app.py`, `srt_remove_dup.py`): subtitle de-duplication,
token-aware chunking, frame sampling/deduplication and frame allocation.

Python strings are modelled as Lean `String` (both index by code points),
Python ints as `ℤ`/`ℕ`, and Python floats as `ℚ` (all float values arising
in the verified claims are dyadic rationals, on which Python float
arithmetic is exact).  External image operations (`cv2.cvtColor`,
`cv2.resize`, decoding) are treated as producing the pixel matrices that
the verified arithmetic consumes.
-/

namespace VideoSummary

/-! ## Character predicates and string helpers -/

/-- `INVALID_PATH_CHARS = set('<>:"/\\|?*')` from `video_summary_app.py`. -/
def invalidPathChars : List Char := ['<', '>', ':', '"', '/', '\\', '|', '?', '*']

/-- Python `str.isspace` on a single character: the Unicode whitespace
code points recognised by CPython. -/
def pyIsSpace (c : Char) : Bool :=
  c.toNat ∈ [9, 10, 11, 12, 13, 28, 29, 30, 31, 32, 133, 160, 5760,
    8192, 8193, 8194, 8195, 8196, 8197, 8198, 8199, 8200, 8201, 8202,
    8232, 8233, 8239, 8287, 12288]

/-- Python `str.strip()` (default whitespace stripping, both ends). -/
def pyStrip (s : String) : String :=
  String.mk (((s.data.dropWhile pyIsSpace).reverse.dropWhile pyIsSpace).reverse)

/-- The condition under which `sanitize_filename` replaces a character by
an underscore: `ch in INVALID_PATH_CHARS or ord(ch) < 32 or ch.isspace()`. -/
def isReplacedChar (c : Char) : Bool :=
  c ∈ invalidPathChars || c.toNat < 32 || pyIsSpace c

/-- The character-wise replacement pass of `sanitize_filename`. -/
def sanitizeMap (name : String) : List Char :=
  name.data.map (fun ch => if isReplacedChar ch then '_' else ch)

/-- `re.sub(r'_+', '_', sanitized)`: collapse each run of consecutive
underscores to a single underscore. -/
def collapseUnd : List Char → List Char
  | [] => []
  | [c] => [c]
  | a :: b :: rest =>
    if a = '_' && b = '_' then collapseUnd (b :: rest)
    else a :: collapseUnd (b :: rest)

/-- Python `str.strip('_')`: drop leading and trailing underscores. -/
def stripUnd (l : List Char) : List Char :=
  ((l.dropWhile (· = '_')).reverse.dropWhile (· = '_')).reverse

/-- `sanitize_filename` from `video_summary_app.py` (lines 31-47). -/
def sanitizeFilename (name : String) : String :=
  if name = "" then "untitled"
  else
    let stripped := stripUnd (collapseUnd (sanitizeMap name))
    if stripped = [] then "untitled" else String.mk stripped

/-! ## Token counting (`token_pattern` / `_count_words`) -/

/-- One CJK ideograph, i.e. a match of `[一-鿿]`. -/
def isCJK (c : Char) : Bool := 0x4e00 ≤ c.toNat && c.toNat ≤ 0x9fff

/-- A character of an ASCII letter/digit run, i.e. of `[a-zA-Z0-9]+`. -/
def isAsciiAlnum (c : Char) : Bool := c.isAlphanum

/-- Scanner for `re.findall(r'[一-鿿]|[a-zA-Z0-9]+', text)`:
counts the matches.  The boolean records whether the scanner is inside a
maximal `[a-zA-Z0-9]+` run that has already been counted. -/
def countTokensGo : Bool → List Char → ℕ
  | _, [] => 0
  | inRun, c :: rest =>
    if isCJK c then 1 + countTokensGo false rest
    else if isAsciiAlnum c then
      (if inRun then 0 else 1) + countTokensGo true rest
    else countTokensGo false rest

/-- Number of matches of `[一-鿿]|[a-zA-Z0-9]+` in `text`
(used both by `_split_subtitles_into_chunks` and `_count_words`). -/
def countTokens (s : String) : ℕ := countTokensGo false s.data

/-! ## `get_longest_overlap` and the duplicate-removal pass
(`video_summary_app.py` lines 152-205, `srt_remove_dup.py` lines 75-118) -/

/-- The descending scan `for length in range(max_possible, min_overlap - 1, -1)`
of `get_longest_overlap`, with `min_overlap = 4`: the first (largest) `L ≥ 4`
with `s1.endswith(s2[:L])` wins.  Lengths below 4 are never tried. -/
def overlapFrom (s1 s2 : String) : ℕ → ℕ
  | 0 => 0
  | l + 1 =>
    if 4 ≤ l + 1 && (s2.take (l + 1)).data.isSuffixOf s1.data then l + 1
    else overlapFrom s1 s2 l

/-- `get_longest_overlap(s1, s2)`. -/
def getLongestOverlap (s1 s2 : String) : ℕ :=
  if s1 = "" || s2 = "" then 0
  else overlapFrom s1 s2 (min s1.length s2.length)

/-- One block as produced by `parse_srt_robust`: its timecode line and its
dialogue lines. -/
structure SrtBlock where
  time : String
  textLines : List String

/-- The overlap-removal-and-filter loop of `process_srt` /
`remove_duplicates_from_srt`, after the first retained entry: `prevText`
chains over the retained texts. -/
def dedupChain (prevText : String) : List (String × String) → List (String × String)
  | [] => []
  | (t, cur) :: rest =>
    let overlapLen := getLongestOverlap prevText cur
    let newText := if 0 < overlapLen then pyStrip (cur.drop overlapLen) else cur
    if newText ≠ "" ∧ 1 < newText.length then (t, newText) :: dedupChain newText rest
    else dedupChain prevText rest

/-- The whole de-duplication loop over `(time, flattened text)` pairs:
the first block is always kept verbatim. -/
def removeDuplicatePass : List (String × String) → List (String × String)
  | [] => []
  | (t, cur) :: rest => (t, cur) :: dedupChain cur rest

/-- `process_srt` (resp. `remove_duplicates_from_srt`) applied to parsed
blocks: each block's text lines are joined by single spaces and stripped
(`" ".join(block["text_lines"]).strip()`), then de-duplicated. -/
def processSrt (blocks : List SrtBlock) : List (String × String) :=
  removeDuplicatePass
    (blocks.map (fun b => (b.time, pyStrip (String.intercalate " " b.textLines))))

/-! ## `TimeRangeExtractor.time_str_to_seconds` and subtitle entries -/

/-- A parsed `HH:MM:SS[,.]mmm` timestamp (the result of splitting the time
string on `:`; the seconds field carries the milliseconds). -/
structure Timestamp where
  hours : ℕ
  minutes : ℕ
  seconds : ℚ
deriving Inhabited, DecidableEq

/-- `time_str_to_seconds`: `hours * 3600 + minutes * 60 + seconds`. -/
def timeStrToSeconds (t : Timestamp) : ℚ :=
  t.hours * 3600 + t.minutes * 60 + t.seconds

/-- One entry of `subtitle_data` as produced by `parse_subtitles`:
start/end timestamps and the flattened dialogue text. -/
structure SubEntry where
  startTs : Timestamp
  endTs : Timestamp
  text : String
deriving Inhabited, DecidableEq

/-! ## `_split_subtitles_into_chunks` (`video_summary_app.py` lines 1214-1274) -/

/-- `max(1, len(tokens))` for each entry: the per-entry token counts. -/
def entryTokenCounts (entries : List SubEntry) : List ℕ :=
  entries.map (fun e => max 1 (countTokens e.text))

/-- `cumulative[i]` of the prefix-sum array built over the token counts
(`cumulative` has length `len(counts) + 1`, `cumulative[0] = 0`). -/
def cumulAt (counts : List ℕ) (i : ℕ) : ℕ := (counts.take i).sum

/-- `bisect.bisect_left(cumulative, target, lo)` on the sorted (strictly
increasing) cumulative array of `counts`: the smallest index `≥ lo` whose
cumulative value is `≥ target`, i.e. `max lo #{i ≤ len : cumulative[i] < target}`. -/
def bisectLeft (counts : List ℕ) (target lo : ℕ) : ℕ :=
  max lo ((List.range (counts.length + 1)).countP (fun i => cumulAt counts i < target))

/-- One produced chunk: text, time range in seconds, and the half-open
index range into the entry sequence. -/
structure ChunkRec where
  text : String
  startTime : ℚ
  endTime : ℚ
  startIndex : ℕ
  endIndex : ℕ
deriving DecidableEq

/-- The end index of the chunk starting at `startIdx`:
`end_idx = bisect_left(cumulative, cumulative[start_idx] + chunk_size, lo=start_idx+1)`,
forced to `start_idx + 1` if it degenerates, clamped to `total_entries`. -/
def chunkEnd (counts : List ℕ) (total chunkSize startIdx : ℕ) : ℕ :=
  let e0 := bisectLeft counts (cumulAt counts startIdx + chunkSize) (startIdx + 1)
  let e1 := if e0 ≤ startIdx then startIdx + 1 else e0
  if total < e1 then total else e1

/-- The next start index:
`start_idx = bisect_left(cumulative, max(0, cumulative[end_idx] - overlap))`
(the `max(0, ·)` is the truncated subtraction). -/
def nextStart (counts : List ℕ) (overlap endIdx : ℕ) : ℕ :=
  bisectLeft counts (cumulAt counts endIdx - overlap) 0

/-- The chunk record emitted for `subtitle_data[start_idx:end_idx]`: text
is the newline-join of the non-empty stripped entry texts, the time range
spans the first entry's start to the last entry's end. -/
def mkChunk (entries : List SubEntry) (startIdx endIdx : ℕ) : ChunkRec :=
  let chunkEntries := (entries.drop startIdx).take (endIdx - startIdx)
  let textParts := (chunkEntries.map (fun e => pyStrip e.text)).filter (fun t => t ≠ "")
  { text := pyStrip (String.intercalate "\n" textParts)
    startTime := timeStrToSeconds ((chunkEntries.headD default).startTs)
    endTime := timeStrToSeconds ((chunkEntries.getLastD default).endTs)
    startIndex := startIdx
    endIndex := endIdx }

/-- The `while start_idx < total_entries` loop of
`_split_subtitles_into_chunks`, with explicit fuel.  Each iteration
strictly increases `start_idx` whenever `overlap < chunk_size` (proved
below), so `entries.length` units of fuel reproduce the Python loop. -/
def splitGo (entries : List SubEntry) (counts : List ℕ) (chunkSize overlap : ℕ) :
    ℕ → ℕ → List ChunkRec
  | 0, _ => []
  | fuel + 1, startIdx =>
    if startIdx < entries.length then
      if entries.length ≤ chunkEnd counts entries.length chunkSize startIdx then
        [mkChunk entries startIdx (chunkEnd counts entries.length chunkSize startIdx)]
      else if entries.length ≤
          nextStart counts overlap (chunkEnd counts entries.length chunkSize startIdx) then
        [mkChunk entries startIdx (chunkEnd counts entries.length chunkSize startIdx)]
      else
        mkChunk entries startIdx (chunkEnd counts entries.length chunkSize startIdx) ::
          splitGo entries counts chunkSize overlap fuel
            (if nextStart counts overlap (chunkEnd counts entries.length chunkSize startIdx) =
                chunkEnd counts entries.length chunkSize startIdx then
              nextStart counts overlap (chunkEnd counts entries.length chunkSize startIdx) + 1
            else nextStart counts overlap (chunkEnd counts entries.length chunkSize startIdx))
    else []

/-- `_split_subtitles_into_chunks(subtitle_data, chunk_size, overlap)`. -/
def splitSubtitlesIntoChunks (entries : List SubEntry) (chunkSize overlap : ℕ) :
    List ChunkRec :=
  match entries with
  | [] => []
  | _ :: _ =>
    splitGo entries (entryTokenCounts entries) chunkSize overlap entries.length 0

/-! ## `_allocate_frame_counts` (`video_summary_app.py` lines 1551-1593) -/

/-- Stable insertion of index `i` into a list already sorted by strictly
decreasing key: `i` goes after every index of key `≥ key i`. -/
def insertByDesc (key : ℕ → ℚ) (i : ℕ) : List ℕ → List ℕ
  | [] => [i]
  | j :: rest => if key j < key i then i :: j :: rest else j :: insertByDesc key i rest

/-- `sorted(range(len(sections)), key=lambda idx: remainders[idx], reverse=True)`:
Python's stable sort, descending by fractional remainder, ties keeping the
smaller index first. -/
def sortIdxDesc (rems : List ℚ) : List ℕ :=
  (List.range rems.length).foldl (fun acc i => insertByDesc (fun j => rems.getD j 0) i acc) []

/-- The `while remaining > 0 and order:` distribution loop: hand one frame
to `order[idx % len(order)]` per round. -/
def distribute (order : List ℕ) : ℕ → ℕ → List ℕ → List ℕ
  | 0, _, allocs => allocs
  | r + 1, idx, allocs =>
    match order with
    | [] => allocs
    | _ :: _ =>
      let target := order.getD (idx % order.length) 0
      distribute order r (idx + 1) (allocs.set target (allocs.getD target 0 + 1))

/-- `_allocate_frame_counts(sections, total_frames)`: floor allocation by
word-weight, remainder distributed to the largest fractional remainders
first (Python float arithmetic modelled by exact rationals). -/
def allocateFrameCounts (sections : List String) (totalFrames : ℤ) : List ℕ :=
  if totalFrames ≤ 0 then List.replicate sections.length 0
  else
    let weights0 := sections.map (fun s => let w := countTokens s; if 0 < w then w else 1)
    let tw0 := weights0.sum
    let weights := if tw0 = 0 then List.replicate sections.length 1 else weights0
    let totalWeight : ℕ := if tw0 = 0 then sections.length else tw0
    let exacts := weights.map (fun w => ((totalFrames * w : ℤ) : ℚ) / (totalWeight : ℚ))
    let allocations := exacts.map (fun e => (Int.floor e).toNat)
    let remainders := exacts.map (fun e => e - ((Int.floor e : ℤ) : ℚ))
    let assigned : ℕ := allocations.sum
    let remaining : ℤ := totalFrames - assigned
    let order := sortIdxDesc remainders
    distribute order remaining.toNat 0 allocations

/-! ## `TimeRangeExtractor._calculate_similarity` and `_block_change_score`

Grayscale images are modelled as pixel matrices `ℕ → ℕ → ℚ` with values in
`[0, 255]`; `cv2.cvtColor`/`cv2.resize` are external, so the functions
below consume the already-converted, already-resized matrices. -/

/-- A grayscale pixel matrix (row, column ↦ intensity). -/
def Gray : Type := ℕ → ℕ → ℚ

/-- `_calculate_similarity`: mean squared difference over the downscaled
`128×72` images, normalised by `255.0 ** 2`, similarity `= 1 - mse/max_mse`. -/
def calcSimilarity (g1 g2 : Gray) : ℚ :=
  let mse := (∑ i ∈ Finset.range 72, ∑ j ∈ Finset.range 128, (g1 i j - g2 i j) ^ 2)
      / (72 * 128)
  1 - mse / (255 ^ 2)

/-- The target resize dimensions `(target_h, target_w)` of
`_block_change_score`: `(144, 256)`, shrunk to the nearest multiples of the
grid when the grid does not divide them. -/
def targetDims (gridRows gridCols : ℕ) : ℕ × ℕ :=
  if 144 % gridRows ≠ 0 ∨ 256 % gridCols ≠ 0 then
    ((144 / gridRows) * gridRows, (256 / gridCols) * gridCols)
  else (144, 256)

/-- The mean absolute normalised pixel difference of the block at grid
position `(r, c)` (block size `bh × bw`). -/
def blockMean (g1 g2 : Gray) (bh bw r c : ℕ) : ℚ :=
  (∑ i ∈ Finset.range bh, ∑ j ∈ Finset.range bw,
      |g1 (r * bh + i) (c * bw + j) - g2 (r * bh + i) (c * bw + j)| / 255)
    / (bh * bw)

/-- `_block_change_score` on the resized grayscale matrices: the maximum
block mean over the `grid_rows × grid_cols` grid (`np.max(block_scores)`). -/
def blockChangeScore (g1 g2 : Gray) (gridRows gridCols : ℕ) : ℚ :=
  let dims := targetDims gridRows gridCols
  let bh := dims.1 / gridRows
  let bw := dims.2 / gridCols
  ((List.range gridRows).flatMap
      (fun r => (List.range gridCols).map (fun c => blockMean g1 g2 bh bw r c))).foldr
    max 0

/-! ## `_deduplicate_frame_paths` (`video_summary_app.py` lines 1516-1549)

A frame path is modelled as `Option Gray`: `none` stands for a path that
does not exist or that `cv2.imread` fails to decode. -/

/-- The candidate loop of `_deduplicate_frame_paths`: keep a candidate
unless its similarity to some already-kept reference reaches the
threshold; kept candidates become new references. -/
def dedupFramesGo (threshold : ℚ) (refs : List Gray) : List (Option Gray) → List Gray
  | [] => []
  | none :: rest => dedupFramesGo threshold refs rest
  | some img :: rest =>
    if refs.any (fun ref => decide (threshold ≤ calcSimilarity ref img)) then
      dedupFramesGo threshold refs rest
    else img :: dedupFramesGo threshold (refs ++ [img]) rest

/-- `_deduplicate_frame_paths(frame_paths, similarity_threshold=0.97)`. -/
def dedupFramePaths (threshold : ℚ) : List (Option Gray) → List Gray
  | [] => []
  | p :: rest => dedupFramesGo threshold [] (p :: rest)

/-! ## `TimeRangeExtractor.extract_frames_in_range`
(`video_summary_app.py` lines 783-931) -/

/-- A frame saved by `save_frame`: the image, its timestamp in seconds and
whether it was saved as a primary (`main`) or secondary (`aux`) keyframe. -/
structure FrameRec (α : Type) where
  image : α
  timestamp : ℚ
  primary : Bool
deriving DecidableEq

/-- A `cv2.VideoCapture` source: whether it opens, its frame rate, and the
frame delivered by the `k`-th sequential `cap.read()` after seeking
(`none` models a failed read / exhausted source). -/
structure VideoSource (α : Type) where
  opened : Bool
  fps : ℚ
  frames : ℤ → Option α

/-- Python `int(...)` on a (real-valued) number: truncation toward zero. -/
def pyInt (q : ℚ) : ℤ := q.num.tdiv q.den

/-- The configuration parameters of `extract_frames_in_range` that the
verified logic consumes (defaults as in the Python signature). -/
structure ExtractConfig where
  startTime : ℚ
  endTime : ℚ
  interval : ℚ := 2
  skipSimilar : Bool := true
  useBlockDiff : Bool := true
  primaryChangeThreshold : ℚ := 1/4
  secondaryChangeThreshold : ℚ := 3/25
  minPrimaryInterval : ℚ := 4
  minSecondaryInterval : ℚ := 2
  blockGridRows : ℕ := 4
  blockGridCols : ℕ := 4

/-- The `while frame_count <= (end_frame - start_frame)` sampling loop.
`score` stands for `_block_change_score` and `sim` for
`_calculate_similarity` applied to the decoded frames (the cv2 decode /
resize pipeline is external to the model); `r` is the number of loop
iterations still permitted by the loop bound, `k` is `frame_count`. -/
def extractGo {α : Type} (score : α → α → ℕ → ℕ → ℚ) (sim : α → α → ℚ)
    (v : VideoSource α) (cfg : ExtractConfig) (startFrame : ℤ) (frameInterval : ℕ) :
    ℕ → ℕ → List (FrameRec α) → Option (α × ℚ) → List (FrameRec α)
  | 0, _, acc, _ => acc
  | r + 1, k, acc, lastSaved =>
    match v.frames (startFrame + k) with
    | none => acc
    | some frame =>
      let currentTime := cfg.startTime + (k : ℚ) / v.fps
      if cfg.endTime < currentTime then acc
      else
        let step : List (FrameRec α) × Option (α × ℚ) :=
          if k % frameInterval = 0 then
            if cfg.skipSimilar = false then
              (acc ++ [⟨frame, currentTime, true⟩], lastSaved)
            else
              match lastSaved with
              | none => (acc ++ [⟨frame, currentTime, true⟩], some (frame, currentTime))
              | some (lastF, lastT) =>
                let changeScore :=
                  if cfg.useBlockDiff then
                    score lastF frame cfg.blockGridRows cfg.blockGridCols
                  else 1 - sim lastF frame
                let timeSinceLast := currentTime - lastT
                if cfg.primaryChangeThreshold ≤ changeScore ∧
                    cfg.minPrimaryInterval ≤ timeSinceLast then
                  (acc ++ [⟨frame, currentTime, true⟩], some (frame, currentTime))
                else if cfg.secondaryChangeThreshold ≤ changeScore ∧
                    cfg.minSecondaryInterval ≤ timeSinceLast then
                  (acc ++ [⟨frame, currentTime, false⟩], some (frame, currentTime))
                else (acc, lastSaved)
          else (acc, lastSaved)
        extractGo score sim v cfg startFrame frameInterval r (k + 1) step.1 step.2

/-- `extract_frames_in_range`: raises (`Except.error`) iff the capture
cannot be opened; otherwise runs the sampling loop from
`start_frame = int(start_time * fps)` for `end_frame - start_frame + 1`
candidate frames with stride `max(1, int(fps * interval))`. -/
def extractFramesInRange {α : Type} (score : α → α → ℕ → ℕ → ℚ) (sim : α → α → ℚ)
    (v : VideoSource α) (cfg : ExtractConfig) : Except String (List (FrameRec α)) :=
  if v.opened = false then Except.error "cannot open video file"
  else
    let startFrame := pyInt (cfg.startTime * v.fps)
    let endFrame := pyInt (cfg.endTime * v.fps)
    let frameInterval := (max 1 (pyInt (v.fps * cfg.interval))).toNat
    Except.ok
      (extractGo score sim v cfg startFrame frameInterval
        (endFrame - startFrame + 1).toNat 0 [] none)

/-! # Theorems -/

/-! ## Claim C4: `get_longest_overlap` -/

/-- The descending scan never returns a positive length below the
minimum overlap of 4. -/
lemma overlapFrom_eq_zero_or_ge_four (s1 s2 : String) :
    ∀ n, overlapFrom s1 s2 n = 0 ∨ 4 ≤ overlapFrom s1 s2 n := by
  intro n
  induction n with
  | zero => left; rfl
  | succ l ih =>
    rw [overlapFrom]
    split
    · next h =>
      right
      rcases Bool.and_eq_true_iff.mp h with ⟨h4, _⟩
      exact of_decide_eq_true h4
    · exact ih

/-- C4 (counterexample): contrary to the claim,
`get_longest_overlap("abcdef", "defghi")` is `0`, not `3`: the matching
suffix/prefix has length 3, which is below the minimum overlap of 4, so
the descending scan (which stops at length 4) never reports it. -/
theorem getLongestOverlap_abcdef_ne_three :
    ¬ getLongestOverlap "abcdef" "defghi" = 3 := by decide

/-- C4 (amended): `get_longest_overlap("abcdef", "defghi") = 0` (the
length-3 match is below the minimum overlap 4),
`get_longest_overlap("abc", "xyz") = 0`, and for every pair of strings the
result is either `0` or at least the configured minimum of 4 — no overlap
length below the minimum is ever returned even when the suffix/prefix
match is exact. -/
theorem getLongestOverlap_spec :
    getLongestOverlap "abcdef" "defghi" = 0 ∧
    getLongestOverlap "abc" "xyz" = 0 ∧
    ∀ s1 s2 : String, getLongestOverlap s1 s2 = 0 ∨ 4 ≤ getLongestOverlap s1 s2 := by
  refine ⟨by decide, by decide, fun s1 s2 => ?_⟩
  unfold getLongestOverlap
  split
  · left; rfl
  · exact overlapFrom_eq_zero_or_ge_four s1 s2 _

/-! ## Claim C3: idempotence of the de-duplication pass -/

/-- If the chained previous text has no reportable overlap with any of the
upcoming texts (consecutively) and every upcoming text has length `> 1`,
the de-duplication loop keeps everything unchanged. -/
lemma dedupChain_eq_self (rest : List (String × String)) :
    ∀ prev : String,
      List.Chain (fun a b => getLongestOverlap a b = 0) prev (rest.map Prod.snd) →
      (∀ p ∈ rest, p.2 ≠ "" ∧ 1 < p.2.length) →
      dedupChain prev rest = rest := by
  induction rest with
  | nil => intro prev _ _; rfl
  | cons p rest ih =>
    intro prev hchain hlen
    obtain ⟨t, x⟩ := p
    rw [List.map_cons, List.chain_cons] at hchain
    obtain ⟨hov, hchain'⟩ := hchain
    have hx := hlen (t, x) (List.mem_cons_self _ _)
    rw [dedupChain]
    simp only [hov, lt_self_iff_false, if_false]
    rw [if_pos hx]
    exact congrArg _ (ih x hchain' (fun q hq => hlen q (List.mem_cons_of_mem _ hq)))

/-- C3 (counterexample): the de-duplication pass is not idempotent.  On
the two blocks with texts `"abcdabcd"` and `"abcdabcdabcd"` the first run
retains `("abcdabcd", "abcd")`, and a second run over that output removes
the residual overlap `"abcd"` (length 4 ≥ the minimum) and drops the
second pair entirely. -/
theorem removeDuplicatePass_not_idempotent :
    removeDuplicatePass (processSrt [⟨"t1", ["abcdabcd"]⟩, ⟨"t2", ["abcdabcdabcd"]⟩]) ≠
      processSrt [⟨"t1", ["abcdabcd"]⟩, ⟨"t2", ["abcdabcdabcd"]⟩] := by decide

/-- C3 (amended): the pass is idempotent only on outputs free of residual
overlap: if no consecutive pair of texts has a reportable overlap
(`get_longest_overlap = 0`) and every non-first text has length `> 1`,
then a second run keeps every pair unchanged and drops nothing.  In
general a residual suffix/prefix overlap of length ≥ 4 can remain between
consecutive retained texts (the chaining rule compares against the
already-reduced previous text), and a second run then drops entries. -/
theorem removeDuplicatePass_fixedPoint (l : List (String × String))
    (hov : List.Chain' (fun a b => getLongestOverlap a b = 0) (l.map Prod.snd))
    (hlen : ∀ p ∈ l.tail, p.2 ≠ "" ∧ 1 < p.2.length) :
    removeDuplicatePass l = l := by
  match l with
  | [] => rfl
  | (t, x) :: rest =>
    rw [removeDuplicatePass]
    rw [List.map_cons, List.chain'_cons'] at hov
    refine congrArg _ (dedupChain_eq_self rest x ?_ hlen)
    cases hrest : rest.map Prod.snd with
    | nil => exact List.Chain.nil
    | cons y ys =>
      exact List.chain_cons.mpr
        ⟨hov.1 y (by rw [hrest]; rfl), by have := hov.2; rw [hrest] at this; exact this⟩

/-! ## Claim C2: `_allocate_frame_counts` with weights `[10, 5, 5]`, `N = 7` -/

attribute [local semireducible] Rat.add Rat.mul Rat.inv Rat.sub in
/-- C2 (counterexample): for sections of word-weights `[10, 5, 5]` and
`total_frames = 7`, `_allocate_frame_counts` does not return `[4, 2, 1]`. -/
theorem allocateFrameCounts_ne_claimed :
    allocateFrameCounts ["a b c d e f g h i j", "k l m n o", "p q r s t"] 7 ≠
      [4, 2, 1] := by decide

attribute [local semireducible] Rat.add Rat.mul Rat.inv Rat.sub in
/-- C2 (amended): for section weights `[10, 5, 5]` and `total_frames = 7`,
`_allocate_frame_counts` returns exactly `[3, 2, 2]`: the floor allocation
`⌊7·w/20⌋ = [3, 1, 1]` sums to 5, and the remaining 2 frames go one at a
time to the sections with the largest fractional remainders — indices 1
and 2 (remainder `0.75` each, the tie broken by earlier index), not to
index 0 (remainder `0.5`). -/
theorem allocateFrameCounts_example :
    allocateFrameCounts ["a b c d e f g h i j", "k l m n o", "p q r s t"] 7 =
      [3, 2, 2] := by decide

/-- C3 (witness): a concrete overlap-free pair list is a fixed point. -/
theorem removeDuplicatePass_fixedPoint_witness :
    removeDuplicatePass [("1", "abcd"), ("2", "wxyz")] = [("1", "abcd"), ("2", "wxyz")] :=
  removeDuplicatePass_fixedPoint _
    (List.chain'_cons.mpr ⟨by decide, List.chain'_singleton _⟩) (by decide)

/-! ## Claims C1 and C6: the chunking loop

Arithmetic facts about the cumulative token array and `bisect_left`. -/

/-- Prefix sums are monotone. -/
lemma cumulAt_mono (counts : List ℕ) {i j : ℕ} (h : i ≤ j) :
    cumulAt counts i ≤ cumulAt counts j := by
  unfold cumulAt
  calc (counts.take i).sum = ((counts.take j).take i).sum := by
        rw [List.take_take, Nat.min_eq_left h]
    _ ≤ ((counts.take j).take i).sum + ((counts.take j).drop i).sum := Nat.le_add_right _ _
    _ = (counts.take j).sum := by rw [← List.sum_append, List.take_append_drop]

/-- One step of the prefix sums. -/
lemma cumulAt_succ (counts : List ℕ) {i : ℕ} (hi : i < counts.length) :
    cumulAt counts (i + 1) = cumulAt counts i + counts.getD i 0 := by
  unfold cumulAt
  rw [List.take_succ, List.sum_append, List.getElem?_eq_getElem hi]
  simp [List.getD_eq_getElem?_getD, List.getElem?_eq_getElem hi]

/-- A prefix of indices on which a predicate holds bounds `countP` from below. -/
lemma countP_range_lower {n i : ℕ} {p : ℕ → Bool} (hi : i < n)
    (h : ∀ j, j ≤ i → p j = true) : i < (List.range n).countP p := by
  have hsplit : List.range n =
      List.range (i + 1) ++ (List.range (n - (i + 1))).map ((i + 1) + ·) := by
    rw [← List.range_add]
    congr 1
    omega
  rw [hsplit, List.countP_append]
  have h1 : (List.range (i + 1)).countP p = i + 1 := by
    rw [List.countP_eq_length_filter,
      List.filter_eq_self.mpr (fun a ha => h a (Nat.lt_succ_iff.mp (List.mem_range.mp ha))),
      List.length_range]
  omega

/-- If the predicate forces its argument below `i`, then `countP ≤ i`. -/
lemma countP_range_upper {n i : ℕ} {p : ℕ → Bool} (h : ∀ j, p j = true → j < i) :
    (List.range n).countP p ≤ i := by
  rcases le_or_lt i n with hin | hin
  · have hsplit : List.range n = List.range i ++ (List.range (n - i)).map (i + ·) := by
      rw [← List.range_add]
      congr 1
      omega
    rw [hsplit, List.countP_append]
    have h2 : ((List.range (n - i)).map (i + ·)).countP p = 0 := by
      rw [List.countP_eq_zero]
      intro a ha hpa
      rcases List.mem_map.mp ha with ⟨k, _, hk⟩
      have := h a hpa
      omega
    have h1 : (List.range i).countP p ≤ i := by
      calc (List.range i).countP p ≤ (List.range i).length := List.countP_le_length _
        _ = i := List.length_range i
    omega
  · calc (List.range n).countP p ≤ (List.range n).length := List.countP_le_length _
      _ = n := List.length_range n
      _ ≤ i := by omega

/-- An index whose cumulative value is below the target bounds the
bisection count from below. -/
lemma countP_cumul_lower {counts : List ℕ} {t i : ℕ} (hi : i ≤ counts.length)
    (h : cumulAt counts i < t) :
    i < (List.range (counts.length + 1)).countP (fun j => cumulAt counts j < t) :=
  countP_range_lower (by omega)
    (fun j hj => decide_eq_true (lt_of_le_of_lt (cumulAt_mono counts hj) h))

/-- An index whose cumulative value reaches the target bounds the
bisection count from above. -/
lemma countP_cumul_upper {counts : List ℕ} {t i : ℕ} (h : t ≤ cumulAt counts i) :
    (List.range (counts.length + 1)).countP (fun j => cumulAt counts j < t) ≤ i :=
  countP_range_upper (fun j hj => by
    by_contra hji
    push_neg at hji
    have h1 := cumulAt_mono counts hji
    have h2 := of_decide_eq_true hj
    omega)

/-- The element at the bisection count reaches the target (when in range). -/
lemma cumul_countP_ge {counts : List ℕ} {t : ℕ}
    (hle : (List.range (counts.length + 1)).countP
      (fun j => cumulAt counts j < t) ≤ counts.length) :
    t ≤ cumulAt counts
      ((List.range (counts.length + 1)).countP (fun j => cumulAt counts j < t)) := by
  by_contra hlt
  push_neg at hlt
  exact absurd (countP_cumul_lower hle hlt) (lt_irrefl _)

@[simp] lemma mkChunk_startIndex (entries : List SubEntry) (s e : ℕ) :
    (mkChunk entries s e).startIndex = s := rfl

@[simp] lemma mkChunk_endIndex (entries : List SubEntry) (s e : ℕ) :
    (mkChunk entries s e).endIndex = e := rfl

/-- The chunk end strictly exceeds its start. -/
lemma lt_chunkEnd {counts : List ℕ} {total cs s : ℕ} (hs : s < total) :
    s < chunkEnd counts total cs s := by
  have he0 : s + 1 ≤ bisectLeft counts (cumulAt counts s + cs) (s + 1) :=
    le_max_left _ _
  simp only [chunkEnd]
  rw [if_neg (show ¬ bisectLeft counts (cumulAt counts s + cs) (s + 1) ≤ s by omega)]
  split
  · exact hs
  · omega

/-- The chunk end never exceeds the entry count. -/
lemma chunkEnd_le {counts : List ℕ} {total cs s : ℕ} :
    chunkEnd counts total cs s ≤ total := by
  simp only [chunkEnd]
  split <;> first | omega | (split <;> omega)

/-- An unclamped chunk end consumes at least `chunk_size` tokens past the
start. -/
lemma chunkEnd_cumul {counts : List ℕ} {total cs s : ℕ} (hcs : 1 ≤ cs) (hs : s < total)
    (htot : total ≤ counts.length) (hend : chunkEnd counts total cs s < total) :
    cumulAt counts s + cs ≤ cumulAt counts (chunkEnd counts total cs s) := by
  have hsl : s ≤ counts.length := le_trans (le_of_lt hs) htot
  have hcnt : s < (List.range (counts.length + 1)).countP
      (fun j => cumulAt counts j < cumulAt counts s + cs) :=
    countP_cumul_lower hsl (by omega)
  have hform : chunkEnd counts total cs s =
      if total < (List.range (counts.length + 1)).countP
          (fun j => cumulAt counts j < cumulAt counts s + cs) then total
      else (List.range (counts.length + 1)).countP
          (fun j => cumulAt counts j < cumulAt counts s + cs) := by
    have hmax : bisectLeft counts (cumulAt counts s + cs) (s + 1) =
        (List.range (counts.length + 1)).countP
          (fun j => cumulAt counts j < cumulAt counts s + cs) := by
      simp only [bisectLeft]
      omega
    simp only [chunkEnd, hmax]
    rw [if_neg (show ¬ (List.range (counts.length + 1)).countP
        (fun j => cumulAt counts j < cumulAt counts s + cs) ≤ s by omega)]
  rw [hform] at hend ⊢
  split at hend
  · omega
  · next hnt =>
    rw [if_neg hnt]
    exact cumul_countP_ge (by omega)

/-- The next start never runs past the current chunk end. -/
lemma nextStart_le {counts : List ℕ} {ov e : ℕ} :
    nextStart counts ov e ≤ e := by
  simp only [nextStart, bisectLeft, Nat.zero_max]
  exact countP_cumul_upper (Nat.sub_le _ _)

/-- Forward progress of the next start past the old start, whenever the
chunk consumed more than `overlap` tokens. -/
lemma lt_nextStart {counts : List ℕ} {ov e s : ℕ} (hs : s ≤ counts.length)
    (hse : cumulAt counts s < cumulAt counts e - ov) :
    s < nextStart counts ov e := by
  simp only [nextStart, bisectLeft, Nat.zero_max]
  exact countP_cumul_lower hs hse

/-- When the entry closing the chunk has at most `overlap` tokens, the
next start stays strictly below the chunk end (no forced skip). -/
lemma nextStart_lt_of_small {counts : List ℕ} {ov e : ℕ} (he0 : 1 ≤ e)
    (hel : e ≤ counts.length) (hsmall : ∀ c ∈ counts, c ≤ ov) :
    nextStart counts ov e < e := by
  have hmem : counts.getD (e - 1) 0 ∈ counts := by
    have hlt : e - 1 < counts.length := by omega
    rw [List.getD_eq_getElem?_getD, List.getElem?_eq_getElem hlt]
    exact Option.getD_some ▸ List.getElem_mem hlt
  have hsucc := cumulAt_succ counts (i := e - 1) (by omega)
  rw [show e - 1 + 1 = e by omega] at hsucc
  have hco : counts.getD (e - 1) 0 ≤ ov := hsmall _ hmem
  have hwit : cumulAt counts e - ov ≤ cumulAt counts (e - 1) := by omega
  have : nextStart counts ov e ≤ e - 1 := by
    simp only [nextStart, bisectLeft, Nat.zero_max]
    exact le_trans (countP_cumul_upper hwit) (le_refl _)
  omega

/-- Every chunk the loop emits has a non-empty index range bounded by the
entry count. -/
lemma splitGo_bounds (entries : List SubEntry) (counts : List ℕ) (cs ov : ℕ) :
    ∀ fuel s, ∀ ch ∈ splitGo entries counts cs ov fuel s,
      ch.startIndex < ch.endIndex ∧ ch.endIndex ≤ entries.length := by
  intro fuel
  induction fuel with
  | zero => intro s ch h; simp [splitGo] at h
  | succ fuel ih =>
    intro s ch h
    rw [splitGo] at h
    by_cases hs : s < entries.length
    · rw [if_pos hs] at h
      split at h
      · rcases List.mem_singleton.mp h with rfl
        exact ⟨lt_chunkEnd hs, chunkEnd_le⟩
      · split at h
        · rcases List.mem_singleton.mp h with rfl
          exact ⟨lt_chunkEnd hs, chunkEnd_le⟩
        · rcases List.mem_cons.mp h with rfl | hmem
          · exact ⟨lt_chunkEnd hs, chunkEnd_le⟩
          · exact ih _ ch hmem
    · rw [if_neg hs] at h
      simp at h

/-- With `overlap < chunk_size`, starts never decrease below the loop's
current position, and consecutive emitted chunks have strictly increasing
start indices. -/
lemma splitGo_start_mono (entries : List SubEntry) (counts : List ℕ) (cs ov : ℕ)
    (hlen : counts.length = entries.length) (hcs : 1 ≤ cs) (hov : ov < cs) :
    ∀ fuel s,
      (∀ ch ∈ splitGo entries counts cs ov fuel s, s ≤ ch.startIndex) ∧
      List.Chain' (fun a b => a.startIndex < b.startIndex)
        (splitGo entries counts cs ov fuel s) := by
  intro fuel
  induction fuel with
  | zero => intro s; simp [splitGo]
  | succ fuel ih =>
    intro s
    rw [splitGo]
    by_cases hs : s < entries.length
    · rw [if_pos hs]
      split
      · simp
      · next hend =>
        push_neg at hend
        have hprog : s <
            (if nextStart counts ov (chunkEnd counts entries.length cs s) =
                chunkEnd counts entries.length cs s then
              nextStart counts ov (chunkEnd counts entries.length cs s) + 1
            else nextStart counts ov (chunkEnd counts entries.length cs s)) := by
          have hcu := chunkEnd_cumul hcs hs (ge_of_eq hlen) hend
          have hlt := @lt_nextStart counts ov (chunkEnd counts entries.length cs s) s
            (by omega) (by omega)
          split
          · omega
          · exact hlt
        split
        · simp
        · constructor
          · intro ch hch
            rcases List.mem_cons.mp hch with rfl | hmem
            · simp
            · have := (ih _).1 ch hmem
              omega
          · refine List.chain'_cons'.mpr ⟨?_, (ih _).2⟩
            intro y hy
            have hmem := List.mem_of_mem_head? hy
            have := (ih _).1 y hmem
            simp only [mkChunk_startIndex]
            omega
    · rw [if_neg hs]
      simp

/-- With `overlap < chunk_size`, any fuel of at least `total_entries - start`
iterations computes the loop's fixed point: the loop terminates within
`total_entries` iterations. -/
lemma splitGo_fuel (entries : List SubEntry) (counts : List ℕ) (cs ov : ℕ)
    (hlen : counts.length = entries.length) (hcs : 1 ≤ cs) (hov : ov < cs) :
    ∀ f1 f2 s, entries.length - s ≤ f1 → entries.length - s ≤ f2 →
      splitGo entries counts cs ov f1 s = splitGo entries counts cs ov f2 s := by
  intro f1
  induction f1 with
  | zero =>
    intro f2 s h1 _
    have hs : ¬ s < entries.length := by omega
    cases f2 with
    | zero => rfl
    | succ g => rw [splitGo, splitGo, if_neg hs]
  | succ f1 ih =>
    intro f2 s h1 h2
    by_cases hs : s < entries.length
    · cases f2 with
      | zero => omega
      | succ g =>
        rw [splitGo, splitGo, if_pos hs, if_pos hs]
        split
        · rfl
        · next hend =>
          push_neg at hend
          split
          · rfl
          · have hcu := chunkEnd_cumul hcs hs (ge_of_eq hlen) hend
            have hlt := @lt_nextStart counts ov (chunkEnd counts entries.length cs s) s
              (by omega) (by omega)
            refine congrArg _ (ih g _ ?_ ?_)
            · split <;> omega
            · split <;> omega
    · cases f2 with
      | zero => rw [splitGo, splitGo, if_neg hs]
      | succ g => rw [splitGo, splitGo, if_neg hs, if_neg hs]

/-- With `overlap < chunk_size` and every entry's token count at most
`overlap`, the emitted chunks cover every index from the loop's current
position to the end. -/
lemma splitGo_cover (entries : List SubEntry) (counts : List ℕ) (cs ov : ℕ)
    (hlen : counts.length = entries.length) (hcs : 1 ≤ cs) (hov : ov < cs)
    (hsmall : ∀ c ∈ counts, c ≤ ov) :
    ∀ fuel s, entries.length - s ≤ fuel → s < entries.length →
      ∀ i, s ≤ i → i < entries.length →
        ∃ ch ∈ splitGo entries counts cs ov fuel s,
          ch.startIndex ≤ i ∧ i < ch.endIndex := by
  intro fuel
  induction fuel with
  | zero => intro s h1 hs; omega
  | succ fuel ih =>
    intro s h1 hs i hsi hiN
    rw [splitGo, if_pos hs]
    split
    · next hend =>
      exact ⟨_, List.mem_singleton_self _, by simpa using hsi, by simpa using by omega⟩
    · next hend =>
      push_neg at hend
      have hcu := chunkEnd_cumul hcs hs (ge_of_eq hlen) hend
      have he1 : 1 ≤ chunkEnd counts entries.length cs s :=
        le_trans (by omega) (lt_chunkEnd hs)
      have hsmall' := @nextStart_lt_of_small counts ov
        (chunkEnd counts entries.length cs s) he1 (by omega) hsmall
      have hns : ¬ entries.length ≤
          nextStart counts ov (chunkEnd counts entries.length cs s) := by
        have := @chunkEnd_le counts entries.length cs s
        omega
      rw [if_neg hns]
      have hneq : ¬ nextStart counts ov (chunkEnd counts entries.length cs s) =
          chunkEnd counts entries.length cs s := by omega
      rw [if_neg hneq]
      by_cases hie : i < chunkEnd counts entries.length cs s
      · exact ⟨_, List.mem_cons_self _ _, by simpa using hsi, by simpa using hie⟩
      · push_neg at hie
        have hprog : s < nextStart counts ov (chunkEnd counts entries.length cs s) :=
          @lt_nextStart counts ov (chunkEnd counts entries.length cs s) s
            (by omega) (by omega)
        obtain ⟨ch, hch, hc1, hc2⟩ :=
          ih (nextStart counts ov (chunkEnd counts entries.length cs s))
            (by omega) (by omega) i (by omega) hiN
        exact ⟨ch, List.mem_cons_of_mem _ hch, hc1, hc2⟩

/-- C1 (counterexample): for three one-token entries, `chunk_size = 1` and
`overlap = 0`, the produced chunks have index ranges `[0,1)` and `[2,3)`:
the forced-advance step (`start_idx == end_idx → start_idx + 1`) skips
entry 1, so the union of the ranges is not `[0, 3)`. -/
theorem chunk_cover_counterexample :
    ¬ (∀ i < (3 : ℕ), ∃ ch ∈ splitSubtitlesIntoChunks
        [⟨⟨0, 0, 0⟩, ⟨0, 0, 1⟩, "a"⟩, ⟨⟨0, 0, 1⟩, ⟨0, 0, 2⟩, "b"⟩,
          ⟨⟨0, 0, 2⟩, ⟨0, 0, 3⟩, "c"⟩] 1 0,
        ch.startIndex ≤ i ∧ i < ch.endIndex) := by decide

/-- C1 (amended): every chunk produced by `_split_subtitles_into_chunks`
satisfies `end_index > start_index` with `end_index ≤ total_entries`; and
under `chunk_size ≥ 1`, `0 ≤ overlap < chunk_size`, **provided additionally
that every entry's token count is at most `overlap`**, the union of the
`[start_index, end_index)` ranges equals exactly `[0, total_entries)` with
no gaps.  Without that extra hypothesis the forced-advance step
(`start_idx == end_idx → end_idx + 1`) can skip the entry at `end_idx`,
leaving a gap (see the counterexample). -/
theorem chunk_cover_spec (entries : List SubEntry) (chunkSize overlap : ℕ) :
    (∀ ch ∈ splitSubtitlesIntoChunks entries chunkSize overlap,
        ch.startIndex < ch.endIndex ∧ ch.endIndex ≤ entries.length) ∧
    (1 ≤ chunkSize → overlap < chunkSize →
      (∀ c ∈ entryTokenCounts entries, c ≤ overlap) →
      ∀ i < entries.length, ∃ ch ∈ splitSubtitlesIntoChunks entries chunkSize overlap,
        ch.startIndex ≤ i ∧ i < ch.endIndex) := by
  constructor
  · intro ch hch
    match entries, hch with
    | e :: es, hch => exact splitGo_bounds _ _ _ _ _ _ ch hch
  · intro hcs hov hsmall i hi
    match entries, hi with
    | e :: es, hi =>
      exact splitGo_cover (e :: es) _ chunkSize overlap
        (by simp [entryTokenCounts]) hcs hov hsmall _ 0 (by omega) (by simp) i
        (Nat.zero_le i) hi

/-- C1 (witness): four two-token entries with `chunk_size = 3`,
`overlap = 2` are fully covered. -/
theorem chunk_cover_spec_witness :
    ∀ i < (4 : ℕ), ∃ ch ∈ splitSubtitlesIntoChunks
      [⟨⟨0, 0, 0⟩, ⟨0, 0, 1⟩, "aa bb"⟩, ⟨⟨0, 0, 1⟩, ⟨0, 0, 2⟩, "cc dd"⟩,
        ⟨⟨0, 0, 2⟩, ⟨0, 0, 3⟩, "ee ff"⟩, ⟨⟨0, 0, 3⟩, ⟨0, 0, 4⟩, "gg hh"⟩] 3 2,
      ch.startIndex ≤ i ∧ i < ch.endIndex :=
  (chunk_cover_spec
    [⟨⟨0, 0, 0⟩, ⟨0, 0, 1⟩, "aa bb"⟩, ⟨⟨0, 0, 1⟩, ⟨0, 0, 2⟩, "cc dd"⟩,
      ⟨⟨0, 0, 2⟩, ⟨0, 0, 3⟩, "ee ff"⟩, ⟨⟨0, 0, 3⟩, ⟨0, 0, 4⟩, "gg hh"⟩] 3 2).2
    (by omega) (by omega) (by decide)

/-- C6: with `chunk_size ≥ 1` and `0 ≤ overlap < chunk_size`, each chunk's
`start_index` is strictly greater than the previous chunk's `start_index`,
and the chunking loop stabilises within `total_entries` iterations: any
fuel of at least `total_entries` computes the same chunk list. -/
theorem chunk_progress_spec (entries : List SubEntry) (chunkSize overlap : ℕ)
    (hcs : 1 ≤ chunkSize) (hov : overlap < chunkSize) :
    List.Chain' (fun a b => a.startIndex < b.startIndex)
      (splitSubtitlesIntoChunks entries chunkSize overlap) ∧
    ∀ fuel, entries.length ≤ fuel →
      splitGo entries (entryTokenCounts entries) chunkSize overlap fuel 0 =
        splitSubtitlesIntoChunks entries chunkSize overlap := by
  have hlen : (entryTokenCounts entries).length = entries.length := by
    simp [entryTokenCounts]
  constructor
  · match entries with
    | [] => exact List.chain'_nil
    | e :: es =>
      exact (splitGo_start_mono (e :: es) _ chunkSize overlap hlen hcs hov _ 0).2
  · intro fuel hfuel
    match entries with
    | [] =>
      have := splitGo_fuel [] (entryTokenCounts []) chunkSize overlap rfl hcs hov fuel 0 0
        (by simp) (by simp)
      simpa [splitSubtitlesIntoChunks] using this
    | e :: es =>
      exact splitGo_fuel (e :: es) _ chunkSize overlap hlen hcs hov fuel
        (e :: es).length 0 (by omega) (by omega)

/-- C6 (witness): the concrete four-entry instance. -/
theorem chunk_progress_spec_witness :
    List.Chain' (fun a b => a.startIndex < b.startIndex)
      (splitSubtitlesIntoChunks
        [⟨⟨0, 0, 0⟩, ⟨0, 0, 1⟩, "aa bb"⟩, ⟨⟨0, 0, 1⟩, ⟨0, 0, 2⟩, "cc dd"⟩,
          ⟨⟨0, 0, 2⟩, ⟨0, 0, 3⟩, "ee ff"⟩, ⟨⟨0, 0, 3⟩, ⟨0, 0, 4⟩, "gg hh"⟩] 3 2) ∧
    ∀ fuel, (4 : ℕ) ≤ fuel →
      splitGo
        [⟨⟨0, 0, 0⟩, ⟨0, 0, 1⟩, "aa bb"⟩, ⟨⟨0, 0, 1⟩, ⟨0, 0, 2⟩, "cc dd"⟩,
          ⟨⟨0, 0, 2⟩, ⟨0, 0, 3⟩, "ee ff"⟩, ⟨⟨0, 0, 3⟩, ⟨0, 0, 4⟩, "gg hh"⟩]
        (entryTokenCounts
          [⟨⟨0, 0, 0⟩, ⟨0, 0, 1⟩, "aa bb"⟩, ⟨⟨0, 0, 1⟩, ⟨0, 0, 2⟩, "cc dd"⟩,
            ⟨⟨0, 0, 2⟩, ⟨0, 0, 3⟩, "ee ff"⟩, ⟨⟨0, 0, 3⟩, ⟨0, 0, 4⟩, "gg hh"⟩])
        3 2 fuel 0 =
      splitSubtitlesIntoChunks
        [⟨⟨0, 0, 0⟩, ⟨0, 0, 1⟩, "aa bb"⟩, ⟨⟨0, 0, 1⟩, ⟨0, 0, 2⟩, "cc dd"⟩,
          ⟨⟨0, 0, 2⟩, ⟨0, 0, 3⟩, "ee ff"⟩, ⟨⟨0, 0, 3⟩, ⟨0, 0, 4⟩, "gg hh"⟩] 3 2 :=
  chunk_progress_spec _ 3 2 (by omega) (by omega)

/-! ## Claims C5 and C9: `extract_frames_in_range` -/

/-- `int(·)` of a natural number is itself. -/
lemma pyInt_natCast (n : ℕ) : pyInt (n : ℚ) = n := by
  unfold pyInt
  rw [Rat.num_natCast, Rat.den_natCast]
  simp

/-- Splitting off the first stride test of the sampling walk. -/
lemma countStride_succ (fi k r : ℕ) :
    (List.range (r + 1)).countP (fun j => (k + j) % fi = 0) =
      (if k % fi = 0 then 1 else 0) +
        (List.range r).countP (fun j => (k + 1 + j) % fi = 0) := by
  rw [List.range_succ_eq_map, List.countP_cons, List.countP_map]
  have hcomp : ((fun j => decide ((k + j) % fi = 0)) ∘ Nat.succ) =
      (fun j => decide ((k + 1 + j) % fi = 0)) := by
    funext j
    simp only [Function.comp_apply]
    rw [show k + Nat.succ j = k + 1 + j from by omega]
  rw [hcomp]
  by_cases hk : k % fi = 0 <;> simp [hk, Nat.add_comm]

/-- `[0, q·m]` contains exactly `q + 1` multiples of `m`. -/
lemma count_multiples {m : ℕ} (hm : 1 ≤ m) :
    ∀ q : ℕ, (List.range (q * m + 1)).countP (fun j => j % m = 0) = q + 1 := by
  intro q
  induction q with
  | zero =>
    rw [show 0 * m + 1 = 1 from by ring, show List.range 1 = [0] from rfl]
    simp [List.countP_cons, Nat.zero_mod]
  | succ q ihq =>
    have hsplit : List.range ((q + 1) * m + 1) =
        List.range (q * m + 1) ++ (List.range m).map ((q * m + 1) + ·) := by
      rw [← List.range_add]
      congr 1
      ring
    rw [hsplit, List.countP_append, ihq, List.countP_map]
    have hone : ((List.range m).countP
        ((fun j => decide (j % m = 0)) ∘ ((q * m + 1) + ·))) = 1 := by
      have hm1 : List.range m = List.range (m - 1) ++ [m - 1] := by
        conv_lhs => rw [show m = (m - 1) + 1 from by omega]
        rw [List.range_succ]
      rw [hm1, List.countP_append]
      have hz : (List.range (m - 1)).countP
          ((fun j => decide (j % m = 0)) ∘ ((q * m + 1) + ·)) = 0 := by
        rw [List.countP_eq_zero]
        intro a ha
        have halt : a < m - 1 := List.mem_range.mp ha
        simp only [Function.comp_apply, decide_eq_true_eq]
        rw [show q * m + 1 + a = (1 + a) + q * m from by ring,
          Nat.add_mul_mod_self_right, Nat.mod_eq_of_lt (by omega)]
        omega
      have ho : ([m - 1] : List ℕ).countP
          ((fun j => decide (j % m = 0)) ∘ ((q * m + 1) + ·)) = 1 := by
        simp only [List.countP_cons, List.countP_nil, Function.comp_apply,
          decide_eq_true_eq]
        rw [show q * m + 1 + (m - 1) = m + q * m from by omega,
          Nat.add_mul_mod_self_right, Nat.mod_self]
        simp
      omega
    omega

/-- With adaptive scoring disabled and all reads succeeding, every loop
iteration that lands on the stride saves one Primary frame: the saved
count is the number of stride hits, and every saved frame is Primary. -/
lemma extractGo_uniform {α : Type} (score : α → α → ℕ → ℕ → ℚ) (sim : α → α → ℚ)
    (v : VideoSource α) (cfg : ExtractConfig) (startFrame : ℤ) (fi : ℕ)
    (hskip : cfg.skipSimilar = false)
    (hreads : ∀ i : ℤ, (v.frames i).isSome = true) :
    ∀ (r k : ℕ) (acc : List (FrameRec α)) (lastSaved : Option (α × ℚ)),
      (∀ j < r, ¬ cfg.endTime < cfg.startTime + ((k + j : ℕ) : ℚ) / v.fps) →
      (extractGo score sim v cfg startFrame fi r k acc lastSaved).length =
          acc.length + (List.range r).countP (fun j => (k + j) % fi = 0) ∧
        ∀ x ∈ extractGo score sim v cfg startFrame fi r k acc lastSaved,
          x ∈ acc ∨ x.primary = true := by
  intro r
  induction r with
  | zero =>
    intro k acc lastSaved _
    exact ⟨by simp [extractGo], fun x hx => Or.inl hx⟩
  | succ r ih =>
    intro k acc lastSaved htime
    obtain ⟨frame, hframe⟩ := Option.isSome_iff_exists.mp (hreads (startFrame + k))
    have ht0 : ¬ cfg.endTime < cfg.startTime + ((k : ℕ) : ℚ) / v.fps := by
      have := htime 0 (by omega)
      simpa using this
    have htime' : ∀ j < r, ¬ cfg.endTime < cfg.startTime + ((k + 1 + j : ℕ) : ℚ) / v.fps := by
      intro j hj
      have := htime (j + 1) (by omega)
      rwa [show k + (j + 1) = k + 1 + j from by omega] at this
    rw [extractGo, hframe]
    simp only [if_neg ht0, hskip, eq_self_iff_true, ite_true]
    by_cases hk : k % fi = 0
    · simp only [if_pos hk]
      obtain ⟨ihlen, ihmem⟩ :=
        ih (k + 1) (acc ++ [⟨frame, cfg.startTime + ((k : ℕ) : ℚ) / v.fps, true⟩])
          lastSaved htime'
      constructor
      · rw [ihlen, countStride_succ, if_pos hk]
        simp only [List.length_append, List.length_cons, List.length_nil]
        omega
      · intro x hx
        rcases ihmem x hx with hmem | hprim
        · rcases List.mem_append.mp hmem with h | h
          · exact Or.inl h
          · right
            rcases List.mem_singleton.mp h with rfl
            rfl
        · exact Or.inr hprim
    · simp only [if_neg hk]
      obtain ⟨ihlen, ihmem⟩ := ih (k + 1) acc lastSaved htime'
      constructor
      · rw [ihlen, countStride_succ, if_neg hk]
        omega
      · exact ihmem

attribute [local semireducible] Rat.add Rat.mul Rat.inv Rat.sub in
/-- C5 (counterexample): with adaptive scoring disabled, stride 1 s, a
window of `end_time - start_time = 5` seconds (0 to 5 at 1 fps) in which
every read succeeds, `extract_frames_in_range` saves **6** frames — the
loop bound `frame_count <= end_frame - start_frame` is inclusive, so both
window endpoints are sampled — not the claimed 5. -/
theorem extract_five_second_counterexample :
    ((extractFramesInRange (fun _ _ _ _ => (0 : ℚ)) (fun _ _ => (0 : ℚ))
          (⟨true, 1, fun _ => some ()⟩ : VideoSource Unit)
          { startTime := 0, endTime := 5, interval := 1,
            skipSimilar := false }).toOption.map List.length) = some 6 ∧
    ((extractFramesInRange (fun _ _ _ _ => (0 : ℚ)) (fun _ _ => (0 : ℚ))
          (⟨true, 1, fun _ => some ()⟩ : VideoSource Unit)
          { startTime := 0, endTime := 5, interval := 1,
            skipSimilar := false }).toOption.map List.length) ≠ some 5 := by
  constructor <;> decide

/-- C5 (amended): with adaptive scoring disabled (`skip_similar = False`),
a sampling stride of 1 second, an integer frame rate `m ≥ 1`, a window
from an integer second `s` to `s + 5` (so `end_time - start_time = 5`),
and every frame read succeeding, `extract_frames_in_range` saves exactly
**6** frames (the stride walk is endpoint-inclusive: `t = s, …, s + 5`),
all marked Primary. -/
theorem extract_uniform_spec {α : Type} (score : α → α → ℕ → ℕ → ℚ) (sim : α → α → ℚ)
    (v : VideoSource α) (m s : ℕ) (hm : 1 ≤ m)
    (hop : v.opened = true) (hfps : v.fps = (m : ℚ))
    (hreads : ∀ i : ℤ, (v.frames i).isSome = true) :
    ∃ l, extractFramesInRange score sim v
        { startTime := (s : ℚ), endTime := (s : ℚ) + 5, interval := 1,
          skipSimilar := false } = Except.ok l ∧
      l.length = 6 ∧ ∀ x ∈ l, x.primary = true := by
  have hmq : (0 : ℚ) < (m : ℚ) := by exact_mod_cast hm
  set cfg : ExtractConfig := { startTime := (s : ℚ), endTime := (s : ℚ) + 5, interval := 1, skipSimilar := false } with hcfg
  have hsf : pyInt (cfg.startTime * v.fps) = ((s * m : ℕ) : ℤ) := by
    rw [hfps]
    rw [show cfg.startTime * ((m : ℕ) : ℚ) = (((s * m : ℕ) : ℕ) : ℚ) by
      simp only [hcfg]; push_cast; ring]
    exact pyInt_natCast _
  have hef : pyInt (cfg.endTime * v.fps) = (((s + 5) * m : ℕ) : ℤ) := by
    rw [hfps]
    rw [show cfg.endTime * ((m : ℕ) : ℚ) = ((((s + 5) * m : ℕ) : ℕ) : ℚ) by
      simp only [hcfg]; push_cast; ring]
    exact pyInt_natCast _
  have hfi : (max 1 (pyInt (v.fps * cfg.interval))).toNat = m := by
    rw [hfps]
    rw [show ((m : ℕ) : ℚ) * cfg.interval = (((m : ℕ) : ℕ) : ℚ) by
      simp only [hcfg]; ring]
    rw [pyInt_natCast]
    omega
  have hiters : (pyInt (cfg.endTime * v.fps) - pyInt (cfg.startTime * v.fps) + 1).toNat =
      5 * m + 1 := by
    rw [hsf, hef, show (s + 5) * m = s * m + 5 * m from by ring]
    push_cast
    omega
  have htime : ∀ j < 5 * m + 1,
      ¬ cfg.endTime < cfg.startTime + ((0 + j : ℕ) : ℚ) / v.fps := by
    intro j hj
    rw [hfps, not_lt]
    simp only [hcfg]
    have hj' : ((0 + j : ℕ) : ℚ) ≤ 5 * (m : ℚ) := by
      have : (j : ℚ) ≤ ((5 * m : ℕ) : ℚ) := by exact_mod_cast (by omega : j ≤ 5 * m)
      push_cast at this ⊢
      linarith
    have hdiv : ((0 + j : ℕ) : ℚ) / (m : ℚ) ≤ 5 := by
      rw [div_le_iff₀ hmq]
      linarith
    linarith
  have hopen : ¬ v.opened = false := by rw [hop]; simp
  obtain ⟨hlen, hmem⟩ := extractGo_uniform score sim v cfg
    (pyInt (cfg.startTime * v.fps)) ((max 1 (pyInt (v.fps * cfg.interval))).toNat)
    rfl hreads ((pyInt (cfg.endTime * v.fps) - pyInt (cfg.startTime * v.fps) + 1).toNat)
    0 [] none (by rw [hiters]; exact htime)
  refine ⟨extractGo score sim v cfg (pyInt (cfg.startTime * v.fps))
      ((max 1 (pyInt (v.fps * cfg.interval))).toNat)
      ((pyInt (cfg.endTime * v.fps) - pyInt (cfg.startTime * v.fps) + 1).toNat) 0 [] none,
    ?_, ?_, ?_⟩
  · unfold extractFramesInRange
    rw [if_neg hopen]
  · rw [hlen, hiters, hfi]
    simp only [List.length_nil, Nat.zero_add]
    have := count_multiples hm 5
    simpa using this
  · intro x hx
    rcases hmem x hx with h | h
    · cases h
    · exact h

/-- C5 (witness): a 30 fps video with all reads succeeding over `[0, 5]`. -/
theorem extract_uniform_spec_witness :
    ∃ l, extractFramesInRange (fun _ _ _ _ => (0 : ℚ)) (fun _ _ => (0 : ℚ))
        (⟨true, ((30 : ℕ) : ℚ), fun _ => some ()⟩ : VideoSource Unit)
        { startTime := ((0 : ℕ) : ℚ), endTime := ((0 : ℕ) : ℚ) + 5, interval := 1,
          skipSimilar := false } = Except.ok l ∧
      l.length = 6 ∧ ∀ x ∈ l, x.primary = true :=
  extract_uniform_spec (fun _ _ _ _ => (0 : ℚ)) (fun _ _ => (0 : ℚ))
    (⟨true, ((30 : ℕ) : ℚ), fun _ => some ()⟩ : VideoSource Unit) 30 0
    (by omega) rfl rfl (fun _ => rfl)

/-- Two opened sources with the same frame rate that agree on all frames
strictly before a common failure index produce the same extraction: reads
past the first failure never happen. -/
lemma extractGo_congr {α : Type} (score : α → α → ℕ → ℕ → ℚ) (sim : α → α → ℚ)
    (v w : VideoSource α) (cfg : ExtractConfig) (startFrame : ℤ) (fi : ℕ)
    (hfps : v.fps = w.fps) (j : ℕ)
    (hagree : ∀ i : ℤ, i < startFrame + j → v.frames i = w.frames i)
    (hvj : v.frames (startFrame + j) = none) (hwj : w.frames (startFrame + j) = none) :
    ∀ (r k : ℕ) (acc : List (FrameRec α)) (lastSaved : Option (α × ℚ)), k ≤ j →
      extractGo score sim v cfg startFrame fi r k acc lastSaved =
        extractGo score sim w cfg startFrame fi r k acc lastSaved := by
  intro r
  induction r with
  | zero => intro k acc lastSaved _; rfl
  | succ r ih =>
    intro k acc lastSaved hk
    rw [extractGo, extractGo]
    rcases eq_or_lt_of_le hk with rfl | hkj
    · rw [hvj, hwj]
    · have hag := hagree (startFrame + k) (by omega)
      rw [← hag, ← hfps]
      cases hvk : v.frames (startFrame + (k : ℤ)) with
      | none => rfl
      | some frame =>
        dsimp only
        split
        · rfl
        · exact ih (k + 1) _ _ (Nat.succ_le_of_lt hkj)

/-- C9: `extract_frames_in_range` raises exactly when the video source
cannot be opened (`cap.isOpened()` false); for an opened source it always
returns a frame list (a mid-window read failure ends sampling early but is
not an error), and the returned list depends only on the reads strictly
before the first failure: frames past a failed read are never consulted,
so whatever was saved up to that point is returned. -/
theorem extract_error_semantics {α : Type} (score : α → α → ℕ → ℕ → ℚ)
    (sim : α → α → ℚ) (v w : VideoSource α) (cfg : ExtractConfig) :
    ((∃ e, extractFramesInRange score sim v cfg = Except.error e) ↔ v.opened = false) ∧
    (v.opened = true → ∃ l, extractFramesInRange score sim v cfg = Except.ok l) ∧
    (v.opened = true → w.opened = true → v.fps = w.fps →
      ∀ j : ℕ,
        (∀ i : ℤ, i < pyInt (cfg.startTime * v.fps) + j → v.frames i = w.frames i) →
        v.frames (pyInt (cfg.startTime * v.fps) + j) = none →
        w.frames (pyInt (cfg.startTime * v.fps) + j) = none →
        extractFramesInRange score sim v cfg = extractFramesInRange score sim w cfg) := by
  refine ⟨?_, ?_, ?_⟩
  · unfold extractFramesInRange
    by_cases h : v.opened = false
    · rw [if_pos h]
      exact ⟨fun _ => h, fun _ => ⟨_, rfl⟩⟩
    · rw [if_neg h]
      constructor
      · rintro ⟨e, he⟩
        exact Except.noConfusion he
      · intro hh
        exact absurd hh h
  · intro hop
    unfold extractFramesInRange
    rw [if_neg (by rw [hop]; simp)]
    exact ⟨_, rfl⟩
  · intro hvop hwop hfps j hagree hvj hwj
    unfold extractFramesInRange
    rw [if_neg (by rw [hvop]; simp), if_neg (by rw [hwop]; simp)]
    rw [← hfps]
    exact congrArg Except.ok
      (extractGo_congr score sim v w cfg (pyInt (cfg.startTime * v.fps))
        (max 1 (pyInt (v.fps * cfg.interval))).toNat hfps j hagree hvj hwj
        (pyInt (cfg.endTime * v.fps) - pyInt (cfg.startTime * v.fps) + 1).toNat
        0 [] none (Nat.zero_le j))

/-- C9 (witness): a closed source yields an error; two opened 1 fps
sources agreeing up to a failure at frame index 2 extract identically. -/
theorem extract_error_semantics_witness :
    (∃ e, extractFramesInRange (fun _ _ _ _ => (0 : ℚ)) (fun _ _ => (0 : ℚ))
        (⟨false, 1, fun _ => some ()⟩ : VideoSource Unit)
        { startTime := 0, endTime := 5 } = Except.error e) ∧
    extractFramesInRange (fun _ _ _ _ => (0 : ℚ)) (fun _ _ => (0 : ℚ))
        (⟨true, 1, fun i => if i < 2 then some () else none⟩ : VideoSource Unit)
        { startTime := 0, endTime := 5 } =
      extractFramesInRange (fun _ _ _ _ => (0 : ℚ)) (fun _ _ => (0 : ℚ))
        (⟨true, 1, fun i => if i = 2 then none else some ()⟩ : VideoSource Unit)
        { startTime := 0, endTime := 5 } := by
  constructor
  · exact (extract_error_semantics (fun _ _ _ _ => (0 : ℚ)) (fun _ _ => (0 : ℚ))
      (⟨false, 1, fun _ => some ()⟩ : VideoSource Unit)
      (⟨false, 1, fun _ => some ()⟩ : VideoSource Unit)
      { startTime := 0, endTime := 5 }).1.mpr rfl
  · have h0 : pyInt (({ startTime := 0, endTime := 5 } : ExtractConfig).startTime *
        (⟨true, 1, fun i => if i < 2 then some () else none⟩ : VideoSource Unit).fps) =
        0 := by
      show pyInt ((0 : ℚ) * 1) = 0
      rw [zero_mul]
      rfl
    refine (extract_error_semantics (fun _ _ _ _ => (0 : ℚ)) (fun _ _ => (0 : ℚ))
      (⟨true, 1, fun i => if i < 2 then some () else none⟩ : VideoSource Unit)
      (⟨true, 1, fun i => if i = 2 then none else some ()⟩ : VideoSource Unit)
      { startTime := 0, endTime := 5 }).2.2 rfl rfl rfl 2 ?_ ?_ ?_
    · intro i hi
      rw [h0] at hi
      have hi2 : i < 2 := by omega
      have hne : ¬ i = 2 := by omega
      simp only [hi2, if_pos, hne, if_neg, not_false_iff]
    · rw [h0]
      norm_num
    · rw [h0]
      norm_num

/-! ## Claim C10: `sanitize_filename` -/

/-- Every character produced by the replacement pass is an underscore or
an original character that the pass did not replace. -/
lemma mem_sanitizeMap {name : String} {c : Char} (h : c ∈ sanitizeMap name) :
    c = '_' ∨ isReplacedChar c = false := by
  rcases List.mem_map.mp h with ⟨d, _, hd⟩
  by_cases hr : isReplacedChar d = true
  · left; rw [← hd, if_pos hr]
  · right
    rw [← hd, if_neg hr]
    exact Bool.not_eq_true _ ▸ hr

/-- Collapapsing underscore runs only drops characters. -/
lemma mem_collapseUnd : ∀ {l : List Char} {c : Char}, c ∈ collapseUnd l → c ∈ l := by
  intro l
  induction l with
  | nil => intro c h; simp [collapseUnd] at h
  | cons a rest ih =>
    intro c h
    cases rest with
    | nil => simpa [collapseUnd] using h
    | cons b rest' =>
      rw [collapseUnd] at h
      split at h
      · exact List.mem_cons_of_mem _ (ih h)
      · rcases List.mem_cons.mp h with h1 | h2
        · exact h1 ▸ List.mem_cons_self _ _
        · exact List.mem_cons_of_mem _ (ih h2)

/-- Collapsing underscore runs preserves the head character. -/
lemma collapseUnd_head? : ∀ (l : List Char) (x : Char),
    (collapseUnd (x :: l)).head? = some x := by
  intro l
  induction l with
  | nil => intro x; rfl
  | cons b rest ih =>
    intro x
    rw [collapseUnd]
    split
    · next hcond =>
      have hx : x = '_' := of_decide_eq_true (Bool.and_eq_true_iff.mp hcond).1
      have hb : b = '_' := of_decide_eq_true (Bool.and_eq_true_iff.mp hcond).2
      rw [ih b, hx, hb]
    · rfl

/-- After collapsing, no two consecutive characters are both underscores. -/
lemma collapseUnd_chain' : ∀ l : List Char,
    List.Chain' (fun a b => ¬(a = '_' ∧ b = '_')) (collapseUnd l) := by
  intro l
  induction l with
  | nil => simp [collapseUnd]
  | cons a rest ih =>
    cases rest with
    | nil => simp [collapseUnd]
    | cons b rest' =>
      rw [collapseUnd]
      split
      · exact ih
      · next hcond =>
        refine List.chain'_cons'.mpr ⟨?_, ih⟩
        intro y hy
        rw [collapseUnd_head? rest' b] at hy
        cases hy
        intro hab
        exact hcond (Bool.and_eq_true_iff.mpr
          ⟨decide_eq_true hab.1, decide_eq_true hab.2⟩)

/-- Stripping underscores only drops characters. -/
lemma mem_stripUnd {l : List Char} {c : Char} (h : c ∈ stripUnd l) : c ∈ l := by
  unfold stripUnd at h
  rw [List.mem_reverse] at h
  have h2 := List.dropWhile_subset _ h
  rw [List.mem_reverse] at h2
  exact List.dropWhile_subset _ h2

/-- The stripped result never ends in an underscore. -/
lemma stripUnd_getLast?_ne (l : List Char) : (stripUnd l).getLast? ≠ some '_' := by
  unfold stripUnd
  rw [List.getLast?_reverse]
  intro h
  have := List.head?_dropWhile_not (fun c => c = '_') (l.dropWhile (fun c => c = '_')).reverse
  rw [h] at this
  simp at this

/-- The stripped result never starts with an underscore. -/
lemma stripUnd_head?_ne (l : List Char) : (stripUnd l).head? ≠ some '_' := by
  unfold stripUnd
  rw [List.head?_reverse]
  intro h
  obtain ⟨t, ht⟩ := List.dropWhile_suffix
    (l := (l.dropWhile (fun c => c = '_')).reverse) (fun c => c = '_')
  have hgl : ((l.dropWhile (fun c => c = '_')).reverse).getLast? = some '_' := by
    rw [← ht, List.getLast?_append, h]; rfl
  rw [List.getLast?_reverse] at hgl
  have := List.head?_dropWhile_not (fun c => c = '_') l
  rw [hgl] at this
  simp at this

/-- Stripping preserves freedom from consecutive underscores. -/
lemma stripUnd_chain' {l : List Char}
    (h : List.Chain' (fun a b : Char => ¬(a = '_' ∧ b = '_')) l) :
    List.Chain' (fun a b : Char => ¬(a = '_' ∧ b = '_')) (stripUnd l) := by
  unfold stripUnd
  have hsymm : ∀ {m : List Char},
      List.Chain' (fun a b : Char => ¬(a = '_' ∧ b = '_')) m →
      List.Chain' (fun a b : Char => ¬(a = '_' ∧ b = '_')) m.reverse := by
    intro m hm
    rw [List.chain'_reverse]
    exact hm.imp (fun a b hab h2 => hab ⟨h2.2, h2.1⟩)
  exact hsymm ((hsymm (h.suffix (List.dropWhile_suffix _))).suffix (List.dropWhile_suffix _))

/-- If every character is replaced, the replacement pass yields only
underscores, which collapse to at most one underscore and strip to nothing. -/
lemma stripped_eq_nil_of_all_replaced {name : String}
    (h : ∀ c ∈ name.data, isReplacedChar c = true) :
    stripUnd (collapseUnd (sanitizeMap name)) = [] := by
  have hmap : sanitizeMap name = List.replicate name.data.length '_' := by
    unfold sanitizeMap
    rw [List.map_congr_left (g := fun _ => '_') (fun a ha => if_pos (h a ha))]
    exact List.map_const' _ _
  have hcoll : ∀ n : ℕ, collapseUnd (List.replicate n '_') = if n = 0 then [] else ['_'] := by
    intro n
    induction n with
    | zero => rfl
    | succ m ihm =>
      cases m with
      | zero => rfl
      | succ k =>
        rw [List.replicate_succ, List.replicate_succ, collapseUnd, if_pos (by decide),
          ← List.replicate_succ]
        simpa using ihm

  rw [hmap, hcoll]
  split
  · rfl
  · rfl

/-- C10: for every input string, `sanitize_filename` returns a non-empty
string that contains no character from `<>:"/\\|?*`, no control character
(code point < 32), and no whitespace; the result has no leading, trailing
or consecutive underscores; and the empty string, or any string all of
whose characters are replaced, yields `"untitled"`. -/
theorem sanitizeFilename_spec (name : String) :
    sanitizeFilename name ≠ "" ∧
    (∀ c ∈ (sanitizeFilename name).data,
        c ∉ invalidPathChars ∧ 32 ≤ c.toNat ∧ pyIsSpace c = false) ∧
    (sanitizeFilename name).data.head? ≠ some '_' ∧
    (sanitizeFilename name).data.getLast? ≠ some '_' ∧
    List.Chain' (fun a b => ¬(a = '_' ∧ b = '_')) (sanitizeFilename name).data ∧
    ((name = "" ∨ ∀ c ∈ name.data, isReplacedChar c = true) →
      sanitizeFilename name = "untitled") := by
  have goodChar : ∀ c : Char, c ∈ stripUnd (collapseUnd (sanitizeMap name)) →
      c ∉ invalidPathChars ∧ 32 ≤ c.toNat ∧ pyIsSpace c = false := by
    intro c hc
    rcases mem_sanitizeMap (mem_collapseUnd (mem_stripUnd hc)) with h | h
    · subst h; refine ⟨by decide, by decide, by decide⟩
    · unfold isReplacedChar at h
      simp only [Bool.or_eq_false_iff, decide_eq_false_iff_not, List.elem_eq_mem] at h
      exact ⟨h.1.1, by omega, h.2⟩
  have hu5 : List.Chain' (fun a b => ¬(a = '_' ∧ b = '_')) ("untitled" : String).data :=
    List.Pairwise.chain' (by decide)
  by_cases hname : name = ""
  · rw [show sanitizeFilename name = "untitled" by rw [hname]; rfl]
    exact ⟨by decide, by decide, by decide, by decide, hu5, fun _ => rfl⟩
  · have hsf : sanitizeFilename name =
        if stripUnd (collapseUnd (sanitizeMap name)) = [] then "untitled"
        else String.mk (stripUnd (collapseUnd (sanitizeMap name))) := by
      simp only [sanitizeFilename, if_neg hname]
    by_cases hne : stripUnd (collapseUnd (sanitizeMap name)) = []
    · rw [hsf, if_pos hne]
      exact ⟨by decide, by decide, by decide, by decide, hu5, fun _ => rfl⟩
    · rw [hsf, if_neg hne]
      refine ⟨?_, ?_, ?_, ?_, ?_, ?_⟩
      · intro h
        exact hne (congrArg String.data h)
      · exact fun c hc => goodChar c hc
      · exact stripUnd_head?_ne _
      · exact stripUnd_getLast?_ne _
      · exact stripUnd_chain' (collapseUnd_chain' _)
      · intro hcase
        rcases hcase with h | h
        · exact absurd h hname
        · exact absurd (stripped_eq_nil_of_all_replaced h) hne

/-! ## Claim C7: `_block_change_score` -/

lemma le_foldr_max_init (l : List ℚ) (init : ℚ) : init ≤ l.foldr max init := by
  induction l with
  | nil => exact le_refl _
  | cons a t ih => exact le_trans ih (le_max_right _ _)

lemma le_foldr_max_of_mem {l : List ℚ} {x : ℚ} (init : ℚ) (h : x ∈ l) :
    x ≤ l.foldr max init := by
  induction l with
  | nil => cases h
  | cons a t ih =>
    rcases List.mem_cons.mp h with rfl | h2
    · exact le_max_left _ _
    · exact le_trans (ih h2) (le_max_right _ _)

lemma foldr_max_le {l : List ℚ} {b init : ℚ} (hi : init ≤ b) (h : ∀ x ∈ l, x ≤ b) :
    l.foldr max init ≤ b := by
  induction l with
  | nil => exact hi
  | cons a t ih =>
    exact max_le (h a (List.mem_cons_self _ _))
      (ih fun x hx => h x (List.mem_cons_of_mem _ hx))

lemma foldr_max_mem (l : List ℚ) (init : ℚ) :
    l.foldr max init = init ∨ l.foldr max init ∈ l := by
  induction l with
  | nil => left; rfl
  | cons a t ih =>
    have hfold : (a :: t).foldr max init = max a (t.foldr max init) := rfl
    rcases max_cases a (t.foldr max init) with ⟨heq, _⟩ | ⟨heq, _⟩
    · right; rw [hfold, heq]; exact List.mem_cons_self _ _
    · rcases ih with h | h
      · left; rw [hfold, heq, h]
      · right; rw [hfold, heq]; exact List.mem_cons_of_mem _ h

lemma blockMean_nonneg (g1 g2 : Gray) (bh bw r c : ℕ) :
    0 ≤ blockMean g1 g2 bh bw r c := by
  unfold blockMean
  apply div_nonneg _ (by positivity)
  apply Finset.sum_nonneg
  intro i _
  apply Finset.sum_nonneg
  intro j _
  positivity

lemma blockMean_le_one {g1 g2 : Gray}
    (h1 : ∀ i j, 0 ≤ g1 i j ∧ g1 i j ≤ 255) (h2 : ∀ i j, 0 ≤ g2 i j ∧ g2 i j ≤ 255)
    {bh bw : ℕ} (hbh : 0 < bh) (hbw : 0 < bw) (r c : ℕ) :
    blockMean g1 g2 bh bw r c ≤ 1 := by
  unfold blockMean
  have hd : (0 : ℚ) < (bh : ℚ) * bw := by
    have := Nat.mul_pos hbh hbw
    exact_mod_cast this
  rw [div_le_one hd]
  calc (∑ i ∈ Finset.range bh, ∑ j ∈ Finset.range bw,
        |g1 (r * bh + i) (c * bw + j) - g2 (r * bh + i) (c * bw + j)| / 255)
      ≤ ∑ _i ∈ Finset.range bh, ∑ _j ∈ Finset.range bw, (1 : ℚ) := by
        refine Finset.sum_le_sum fun i _ => Finset.sum_le_sum fun j _ => ?_
        rw [div_le_one (by norm_num)]
        rw [abs_le]
        constructor
        · have := (h1 (r * bh + i) (c * bw + j)).1
          have := (h2 (r * bh + i) (c * bw + j)).2
          linarith
        · have := (h1 (r * bh + i) (c * bw + j)).2
          have := (h2 (r * bh + i) (c * bw + j)).1
          linarith
    _ = (bh : ℚ) * bw := by
        simp [Finset.sum_const, Finset.card_range, mul_comm]
    _ ≤ (bh : ℚ) * bw := le_refl _

lemma blockH_pos {gridRows : ℕ} (gridCols : ℕ) (hgr : 0 < gridRows)
    (hgr' : gridRows ≤ 144) : 0 < (targetDims gridRows gridCols).1 / gridRows := by
  unfold targetDims
  split
  · show 0 < 144 / gridRows * gridRows / gridRows
    rw [Nat.mul_div_cancel _ hgr]
    exact Nat.div_pos hgr' hgr
  · exact Nat.div_pos hgr' hgr

lemma blockW_pos (gridRows : ℕ) {gridCols : ℕ} (hgc : 0 < gridCols)
    (hgc' : gridCols ≤ 256) : 0 < (targetDims gridRows gridCols).2 / gridCols := by
  unfold targetDims
  split
  · show 0 < 256 / gridCols * gridCols / gridCols
    rw [Nat.mul_div_cancel _ hgc]
    exact Nat.div_pos hgc' hgc
  · exact Nat.div_pos hgc' hgc

/-- C7: for pixel matrices with values in `[0, 255]` and a grid of at most
`144 × 256` cells, `_block_change_score` lies in `[0, 1]`, dominates every
block's mean absolute normalised pixel difference, and equals one of them:
it is the maximum over all grid blocks, not the global mean. -/
theorem block_change_score_spec (g1 g2 : Gray) (gridRows gridCols : ℕ)
    (hgr : 0 < gridRows) (hgr' : gridRows ≤ 144)
    (hgc : 0 < gridCols) (hgc' : gridCols ≤ 256)
    (h1 : ∀ i j, 0 ≤ g1 i j ∧ g1 i j ≤ 255)
    (h2 : ∀ i j, 0 ≤ g2 i j ∧ g2 i j ≤ 255) :
    0 ≤ blockChangeScore g1 g2 gridRows gridCols ∧
    blockChangeScore g1 g2 gridRows gridCols ≤ 1 ∧
    (∀ r < gridRows, ∀ c < gridCols,
      blockMean g1 g2 ((targetDims gridRows gridCols).1 / gridRows)
          ((targetDims gridRows gridCols).2 / gridCols) r c ≤
        blockChangeScore g1 g2 gridRows gridCols) ∧
    (∃ r < gridRows, ∃ c < gridCols,
      blockChangeScore g1 g2 gridRows gridCols =
        blockMean g1 g2 ((targetDims gridRows gridCols).1 / gridRows)
          ((targetDims gridRows gridCols).2 / gridCols) r c) := by
  have hbh := blockH_pos gridCols hgr hgr'
  have hbw := blockW_pos gridRows hgc hgc'
  have hmem : ∀ x ∈ (List.range gridRows).flatMap
      (fun r => (List.range gridCols).map
        (fun c => blockMean g1 g2 ((targetDims gridRows gridCols).1 / gridRows)
          ((targetDims gridRows gridCols).2 / gridCols) r c)),
      ∃ r < gridRows, ∃ c < gridCols,
        x = blockMean g1 g2 ((targetDims gridRows gridCols).1 / gridRows)
          ((targetDims gridRows gridCols).2 / gridCols) r c := by
    intro x hx
    rcases List.mem_flatMap.mp hx with ⟨r, hr, hx2⟩
    rcases List.mem_map.mp hx2 with ⟨c, hc, hx3⟩
    exact ⟨r, List.mem_range.mp hr, c, List.mem_range.mp hc, hx3.symm⟩
  have hmem' : ∀ r < gridRows, ∀ c < gridCols,
      blockMean g1 g2 ((targetDims gridRows gridCols).1 / gridRows)
          ((targetDims gridRows gridCols).2 / gridCols) r c ∈
        (List.range gridRows).flatMap
          (fun r => (List.range gridCols).map
            (fun c => blockMean g1 g2 ((targetDims gridRows gridCols).1 / gridRows)
              ((targetDims gridRows gridCols).2 / gridCols) r c)) := by
    intro r hr c hc
    exact List.mem_flatMap.mpr ⟨r, List.mem_range.mpr hr,
      List.mem_map.mpr ⟨c, List.mem_range.mpr hc, rfl⟩⟩
  refine ⟨le_foldr_max_init _ _, ?_, ?_, ?_⟩
  · refine foldr_max_le (by norm_num) ?_
    intro x hx
    rcases hmem x hx with ⟨r, _, c, _, rfl⟩
    exact blockMean_le_one h1 h2 hbh hbw r c
  · intro r hr c hc
    exact le_foldr_max_of_mem 0 (hmem' r hr c hc)
  · rcases foldr_max_mem ((List.range gridRows).flatMap
        (fun r => (List.range gridCols).map
          (fun c => blockMean g1 g2 ((targetDims gridRows gridCols).1 / gridRows)
            ((targetDims gridRows gridCols).2 / gridCols) r c))) 0 with h0 | hin
    · refine ⟨0, hgr, 0, hgc, ?_⟩
      have hle := le_foldr_max_of_mem (l := (List.range gridRows).flatMap
        (fun r => (List.range gridCols).map
          (fun c => blockMean g1 g2 ((targetDims gridRows gridCols).1 / gridRows)
            ((targetDims gridRows gridCols).2 / gridCols) r c))) 0 (hmem' 0 hgr 0 hgc)
      have hge := blockMean_nonneg g1 g2 ((targetDims gridRows gridCols).1 / gridRows)
        ((targetDims gridRows gridCols).2 / gridCols) 0 0
      have hscore : blockChangeScore g1 g2 gridRows gridCols =
          ((List.range gridRows).flatMap
            (fun r => (List.range gridCols).map
              (fun c => blockMean g1 g2 ((targetDims gridRows gridCols).1 / gridRows)
                ((targetDims gridRows gridCols).2 / gridCols) r c))).foldr max 0 := rfl
      rw [hscore, h0]
      rw [h0] at hle
      linarith
    · rcases hmem _ hin with ⟨r, hr, c, hc, heq⟩
      exact ⟨r, hr, c, hc, heq⟩

/-- C7 (witness): the `4 × 4` default grid on constant images. -/
theorem block_change_score_spec_witness :
    0 ≤ blockChangeScore (fun _ _ => 0) (fun _ _ => 0) 4 4 ∧
    blockChangeScore (fun _ _ => 0) (fun _ _ => 0) 4 4 ≤ 1 :=
  ⟨(block_change_score_spec (fun _ _ => 0) (fun _ _ => 0) 4 4 (by norm_num) (by norm_num)
      (by norm_num) (by norm_num) (fun i j => by norm_num) (fun i j => by norm_num)).1,
    (block_change_score_spec (fun _ _ => 0) (fun _ _ => 0) 4 4 (by norm_num) (by norm_num)
      (by norm_num) (by norm_num) (fun i j => by norm_num) (fun i j => by norm_num)).2.1⟩

/-! ## Claim C8: `_deduplicate_frame_paths` -/

lemma dedupFramesGo_length (threshold : ℚ) :
    ∀ (l : List (Option Gray)) (refs : List Gray),
      (dedupFramesGo threshold refs l).length ≤ l.length := by
  intro l
  induction l with
  | nil => intro refs; exact le_refl _
  | cons p rest ih =>
    intro refs
    match p with
    | none => exact le_trans (ih refs) (Nat.le_succ _)
    | some img =>
      rw [dedupFramesGo]
      split
      · exact le_trans (ih refs) (Nat.le_succ _)
      · simpa using ih (refs ++ [img])

lemma dedupFramesGo_skip_none (threshold : ℚ) (refs : List Gray) :
    ∀ (n : ℕ) (l : List (Option Gray)),
      dedupFramesGo threshold refs (List.replicate n none ++ l) =
        dedupFramesGo threshold refs l := by
  intro n
  induction n with
  | zero => intro l; rfl
  | succ m ih => intro l; rw [List.replicate_succ, List.cons_append, dedupFramesGo, ih]

/-- C8: the frame de-duplication pass never produces more frames than it
was given; the first readable frame (after any unreadable paths) is always
kept, and becomes the head of the output, because no prior reference
exists; and a later readable frame is discarded exactly when its
whole-frame similarity (`_calculate_similarity`) reaches the threshold
against at least one already-kept reference — otherwise it is kept and
added as a new reference. -/
theorem dedup_frames_spec :
    (∀ (threshold : ℚ) (l : List (Option Gray)),
      (dedupFramePaths threshold l).length ≤ l.length) ∧
    (∀ (threshold : ℚ) (n : ℕ) (img : Gray) (rest : List (Option Gray)),
      (dedupFramePaths threshold (List.replicate n none ++ some img :: rest)).head? =
        some img) ∧
    (∀ (threshold : ℚ) (refs : List Gray) (img : Gray) (rest : List (Option Gray)),
      dedupFramesGo threshold refs (some img :: rest) =
        if refs.any (fun ref => decide (threshold ≤ calcSimilarity ref img)) then
          dedupFramesGo threshold refs rest
        else img :: dedupFramesGo threshold (refs ++ [img]) rest) := by
  refine ⟨?_, ?_, ?_⟩
  · intro threshold l
    match l with
    | [] => exact le_refl _
    | p :: rest => exact dedupFramesGo_length threshold (p :: rest) []
  · intro threshold n img rest
    have hne : List.replicate n none ++ some img :: rest ≠ [] := by
      simp
    have hgo : dedupFramePaths threshold (List.replicate n none ++ some img :: rest) =
        dedupFramesGo threshold [] (List.replicate n none ++ some img :: rest) := by
      match n with
      | 0 => rfl
      | m + 1 => rw [List.replicate_succ, List.cons_append]; rfl
    rw [hgo, dedupFramesGo_skip_none, dedupFramesGo]
    simp
  · intro threshold refs img rest
    rfl

/-- C10 (witness): a string all of whose characters are replaced yields
`"untitled"`, via the theorem with its inner hypothesis discharged. -/
theorem sanitizeFilename_spec_witness :
    sanitizeFilename " / " = "untitled" :=
  (sanitizeFilename_spec " / ").2.2.2.2.2 (Or.inr (by decide))

end VideoSummary
